import Mathlib

/-!
An exact-arithmetic model of the incremental convex-hull engine in
`src/wasm/mdimension_core/src/hull.rs` and of its boundary adapter
`compute_convex_hull_wasm` in `src/wasm/mdimension_core/src/lib.rs`.

Modelling conventions:
* `f64` scalars are modelled by exact rationals `ℚ`; `f64::sqrt` is modelled by
  `ratSqrt`, which is exact on perfect squares.  Every concrete trace evaluated
  below only takes square roots of perfect squares (or stops before any
  irrational square root can influence a branch), so on those traces the model
  agrees with the floating-point run decision-for-decision.
* A Rust panic (out-of-bounds index, mismatched `nalgebra` vector dimensions,
  `usize` division by zero inside `chunks`) is modelled by `none` in an
  `Option`-valued result; a normal Rust `Option::None` return of `Facet::new`
  is modelled by `some none`.
* `nalgebra`'s iterative thin SVD (`try_svd`) cannot be embedded exactly; the
  rows of the `V^T` matrix it yields are supplied by an explicit parameter of
  type `SvdFun` (`none` models both a `try_svd` failure and an absent `v_t`,
  which the source turns into `Option::None` via `?`).  Universal theorems
  below hold for every such parameter, and no concrete trace below ever
  reaches the SVD path (all concrete traces work in dimension 3 or 0).
* `HashMap` / `HashSet` are modelled by lists in insertion order (the Rust
  iteration order is unspecified; only order-insensitive facts are claimed of
  the parts that flow through them).
-/

/-- Threshold for linear independence, `const EPSILON: f64 = 1e-9` in
`hull.rs` (also the visibility epsilon literal `1e-9` in `is_visible`). -/
def EPSILON : ℚ := 1 / 1000000000

/-- Largest `m ≤ k` with `m * m ≤ n` (structural countdown, so that concrete
traces reduce definitionally). -/
def intSqrtAux (n : ℕ) : ℕ → ℕ
  | 0 => 0
  | k + 1 => if (k + 1) * (k + 1) ≤ n then k + 1 else intSqrtAux n k

/-- Integer square root: exact on perfect squares. -/
def intSqrt (n : ℕ) : ℕ := intSqrtAux n n

/-- Model of `f64::sqrt`: exact on perfect squares of rationals.  The source
only compares square roots against thresholds or divides by them; every
concrete trace in this file evaluates `ratSqrt` on perfect squares only. -/
def ratSqrt (q : ℚ) : ℚ :=
  if q ≤ 0 then 0 else (intSqrt q.num.toNat : ℚ) / (intSqrt q.den : ℚ)

/-- `DVector` dot product (`a.dot(&b)`); nalgebra panics on a length mismatch,
the places where that matters guard the lengths explicitly. -/
def dotQ (a b : List ℚ) : ℚ := (List.zipWith (fun x y => x * y) a b).sum

/-- Component-wise vector subtraction (`&a - &b`). -/
def subQ (a b : List ℚ) : List ℚ := List.zipWith (fun x y => x - y) a b

/-- Scalar multiple (`b * dot`). -/
def smulQ (c : ℚ) (v : List ℚ) : List ℚ := v.map (fun x => c * x)

/-- Component-wise division by a scalar (`v / len`). -/
def divQ (v : List ℚ) (c : ℚ) : List ℚ := v.map (fun x => x / c)

/-- Vector negation (`-normal`). -/
def negQ (v : List ℚ) : List ℚ := v.map (fun x => -x)

/-- Squared Euclidean norm; `v.norm()` in the source is `ratSqrt (normSqQ v)`. -/
def normSqQ (v : List ℚ) : ℚ := dotQ v v

/-- A Rust loop that may early-abort with a panic or propagated failure:
collects `g` over the list, failing as a whole when any element fails. -/
def collectRows {α β : Type} (g : α → Option β) : List α → Option (List β)
  | [] => some []
  | a :: as =>
    match g a with
    | none => none
    | some b =>
      match collectRows g as with
      | none => none
      | some bs => some (b :: bs)

/-- A fallible left fold, modelling a stateful Rust loop whose body may
panic. -/
def foldLoop {σ α : Type} (g : σ → α → Option σ) : σ → List α → Option σ
  | s, [] => some s
  | s, a :: as =>
    match g s a with
    | none => none
    | some s' => foldLoop g s' as

/-- Gram-Schmidt basis accumulation loop of `project_to_affine_hull`
(`for i in 1..n { ... }`): orthogonalize the difference from the origin
against the accepted basis, accept it if the residual norm exceeds `EPSILON`,
and break as soon as `d` vectors are found.  `none` models the `nalgebra`
panic on subtracting vectors of different lengths. -/
def affineBasisAux (origin : List ℚ) (d : ℕ) (basis : List (List ℚ)) :
    List (List ℚ) → Option (List (List ℚ))
  | [] => some basis
  | v :: rest =>
    if v.length ≠ origin.length then none
    else
      let diff := basis.foldl (fun dv b => subQ dv (smulQ (dotQ dv b) b)) (subQ v origin)
      let nrm := ratSqrt (normSqQ diff)
      let basis' := if EPSILON < nrm then basis ++ [divQ diff nrm] else basis
      if d ≤ basis'.length then some basis' else affineBasisAux origin d basis' rest

/-- `project_to_affine_hull(vertices, original_dim)` from `hull.rs`.
Returns the projected points and the actual dimension; `none` models a panic
(vectors of inconsistent lengths fed to `nalgebra` subtraction). -/
def project_to_affine_hull (vertices : List (List ℚ)) (d : ℕ) :
    Option (List (List ℚ) × ℕ) :=
  if vertices.length < 2 then some (vertices, (vertices.headD []).length)
  else
    let origin := vertices.headD []
    match affineBasisAux origin d [] (vertices.drop 1) with
    | none => none
    | some basis =>
      if d ≤ basis.length then some (vertices, d)
      else
        match collectRows
            (fun v =>
              if v.length ≠ origin.length then none
              else some (basis.map (fun b => dotQ (subQ v origin) b)))
            vertices with
        | none => none
        | some projected => some (projected, basis.length)

/-- A facet: `d` vertex indices, a unit outward normal and a plane offset
(`struct Facet` in `hull.rs`). -/
structure Facet where
  vertices : List ℕ
  normal : List ℚ
  offset : ℚ
  deriving DecidableEq, Repr

/-- The rows of the `V^T` matrix that `mat.try_svd(...).v_t` yields for the
given row-major matrix; `none` models `try_svd` failure (or an absent `v_t`),
which `Facet::new` propagates as `Option::None` via `?`. -/
abbrev SvdFun : Type := List (List ℚ) → Option (List (List ℚ))

/-- An `SvdFun` instantiation used for concrete traces; none of the concrete
traces in this file reaches the SVD path, so its value is never consulted. -/
def svdTrivial : SvdFun := fun _ => none

/-- Standard basis vector `candidate[start_idx] = 1.0` of length `dim`. -/
def stdBasis (dim s : ℕ) : List ℚ :=
  (List.range dim).map (fun j => if j = s then (1 : ℚ) else 0)

/-- The Gram-Schmidt rejection loop of the general path of `Facet::new`: try
each standard basis vector, project out all rows of `V^T`, keep the first one
whose residual norm exceeds `EPSILON` (normalized); `normal` stays the zero
vector when every candidate is rejected. -/
def findNormal (v_t : List (List ℚ)) (dim : ℕ) : List ℚ :=
  match (List.range dim).findSome? (fun s =>
      let c := v_t.foldl (fun cand row => subQ cand (smulQ (dotQ cand row) row))
        (stdBasis dim s)
      let len := ratSqrt (normSqQ c)
      if EPSILON < len then some (divQ c len) else none) with
  | some n => n
  | none => List.replicate dim 0

/-- Shared tail of both branches of `Facet::new`: flip the normal when
`(centroid - p0) · normal > 0`, then set `offset = normal · p0`.  The source
repeats this orientation / offset code verbatim in the 3-D branch and in the
general branch. -/
def orientFacet (vertex_indices : List ℕ) (normal0 p0 centroid : List ℚ) : Facet :=
  let to_centroid := subQ centroid p0
  let normal := if 0 < dotQ to_centroid normal0 then negQ normal0 else normal0
  { vertices := vertex_indices, normal := normal, offset := dotQ normal p0 }

/-- `Facet::new(vertex_indices, all_points, centroid)` from `hull.rs`.
Outer `none` is a Rust panic (an out-of-bounds index, or a `nalgebra`
operation on vectors of mismatched lengths); `some none` is the source's
`Option::None` (degenerate facet). -/
def Facet.new (svd : SvdFun) (vertex_indices : List ℕ) (all_points : List (List ℚ))
    (centroid : List ℚ) : Option (Option Facet) :=
  match all_points.head? with
  | none => none
  | some p_first =>
    let dim := p_first.length
    if vertex_indices.length ≠ dim then some none
    else
      match vertex_indices.head? with
      | none => none
      | some i0 =>
        match all_points.get? i0 with
        | none => none
        | some p0 =>
          if dim = 3 then
            match all_points.get? (vertex_indices.getD 1 0),
                all_points.get? (vertex_indices.getD 2 0) with
            | some p1, some p2 =>
              if p0.length < 3 ∨ p1.length < 3 ∨ p2.length < 3 then none
              else
                let e1 := [p1.getD 0 0 - p0.getD 0 0, p1.getD 1 0 - p0.getD 1 0,
                  p1.getD 2 0 - p0.getD 2 0]
                let e2 := [p2.getD 0 0 - p0.getD 0 0, p2.getD 1 0 - p0.getD 1 0,
                  p2.getD 2 0 - p0.getD 2 0]
                let cross := [e1.getD 1 0 * e2.getD 2 0 - e1.getD 2 0 * e2.getD 1 0,
                  e1.getD 2 0 * e2.getD 0 0 - e1.getD 0 0 * e2.getD 2 0,
                  e1.getD 0 0 * e2.getD 1 0 - e1.getD 1 0 * e2.getD 0 0]
                let len := ratSqrt (normSqQ cross)
                if len < EPSILON then some none
                else
                  if centroid.length ≠ p0.length then none
                  else if p0.length ≠ 3 then none
                  else some (some (orientFacet vertex_indices (divQ cross len) p0 centroid))
            | _, _ => none
          else
            match collectRows
                (fun vi =>
                  match all_points.get? vi with
                  | none => none
                  | some pi =>
                    if pi.length < dim ∨ p0.length < dim then none
                    else some ((List.range dim).map (fun j => pi.getD j 0 - p0.getD j 0)))
                (vertex_indices.drop 1) with
            | none => none
            | some mat =>
              match svd mat with
              | none => some none
              | some v_t =>
                let normal := findNormal v_t dim
                if ratSqrt (normSqQ normal) < EPSILON then some none
                else
                  if centroid.length ≠ p0.length then none
                  else if p0.length ≠ dim then none
                  else some (some (orientFacet vertex_indices normal p0 centroid))

/-- `Facet::is_visible(point)`: `normal · point - offset > 1e-9`. -/
def Facet.is_visible (f : Facet) (point : List ℚ) : Bool :=
  decide (EPSILON < dotQ f.normal point - f.offset)

/-- Sort a list of indices (`ridge.sort()` / `tri.sort()`). -/
def sortIdx (l : List ℕ) : List ℕ := List.insertionSort (fun a b => a ≤ b) l

/-- The ridges of one facet during an insertion step: drop vertex `j` for
`j in 0..dim`, each normalized by sorting.  `none` models the
`Vec::remove(j)` panic when `j` exceeds the vertex count. -/
def facetRidges (dim : ℕ) (f : Facet) : Option (List (List ℕ)) :=
  if f.vertices.length < dim then none
  else some ((List.range dim).map (fun j => sortIdx (f.vertices.eraseIdx j)))

/-- `*ridge_counts.entry(ridge).or_insert(0) += 1` on the association-list
model of the `HashMap`. -/
def bumpRidge : List (List ℕ × ℕ) → List ℕ → List (List ℕ × ℕ)
  | [], r => [(r, 1)]
  | (k, c) :: rest, r =>
    if k = r then (k, c + 1) :: rest else (k, c) :: bumpRidge rest r

/-- One iteration of the insertion loop of `convex_hull` (the body of
`for i in (dim + 1)..vertices.len()`): visibility scan, horizon-ridge
counting, removal of visible facets, and construction of the new facets. -/
def insertStep (svd : SvdFun) (vertices : List (List ℚ)) (dim : ℕ)
    (centroid : List ℚ) (facets : List Facet) (i : ℕ) : Option (List Facet) :=
  let point := vertices.getD i []
  let visPairs := facets.enum.filter (fun p => p.2.is_visible point)
  let visible_indices := visPairs.map Prod.fst
  if visible_indices = [] then some facets
  else
    match collectRows (facetRidges dim) (visPairs.map Prod.snd) with
    | none => none
    | some ridgeGroups =>
      let ridge_counts := ridgeGroups.flatten.foldl bumpRidge []
      let horizon := (ridge_counts.filter (fun rc => rc.2 == 1)).map Prod.fst
      let kept := (facets.enum.filter
        (fun p => !(visible_indices.contains p.1))).map Prod.snd
      match collectRows (fun ridge => Facet.new svd (ridge ++ [i]) vertices centroid)
          horizon with
      | none => none
      | some newOpts => some (kept ++ newOpts.reduceOption)

/-- Centroid of all points (`centroid[i] += v[i]` then `centroid /= n`);
`none` models the index panic when some point has fewer than `dim`
coordinates. -/
def centroidOf (vertices : List (List ℚ)) (dim : ℕ) : Option (List ℚ) :=
  if vertices.any (fun v => v.length < dim) then none
  else some ((List.range dim).map
    (fun j => (vertices.foldl (fun s v => s + v.getD j 0) 0) / (vertices.length : ℚ)))

/-- All triangles of one facet: the triple loop
`for i, for j in i+1.., for k in j+1..` over its vertex indices. -/
def facetTriples (vs : List ℕ) : List (List ℕ) :=
  (List.range vs.length).flatMap (fun i =>
    ((List.range vs.length).drop (i + 1)).flatMap (fun j =>
      ((List.range vs.length).drop (j + 1)).map (fun k =>
        [vs.getD i 0, vs.getD j 0, vs.getD k 0])))

/-- Body of the triangle-emission loop: sort the candidate triple, skip it if
its key was already seen, otherwise record the key and append the triple to
the flat output. -/
def triStep (st : List (List ℕ) × List ℕ) (t : List ℕ) : List (List ℕ) × List ℕ :=
  let tri := sortIdx t
  if tri ∈ st.1 then st else (tri :: st.1, st.2 ++ tri)

/-- Triangle extraction with global deduplication by sorted 3-index key
(step 3 of `convex_hull`); the `HashSet` is modelled by the list of keys
already emitted. -/
def extract_triangles (facets : List Facet) : List ℕ :=
  (facets.foldl (fun st f => (facetTriples f.vertices).foldl triStep st)
    (([], []) : List (List ℕ) × List ℕ)).2

/-- Total occurrence count of key `r` in the association-list ridge map. -/
def countOf : List (List ℕ × ℕ) → List ℕ → ℕ
  | [], _ => 0
  | (k, c) :: rest, r => (if k = r then c else 0) + countOf rest r

/-- Steps 0-2 of `convex_hull` on a non-degenerate input: centroid, initial
simplex from the first `dim + 1` points (silently dropping failed facets),
then the insertion loop over the remaining points. -/
def hull_facets (svd : SvdFun) (vertices : List (List ℚ)) (dim : ℕ) :
    Option (List Facet) :=
  match centroidOf vertices dim with
  | none => none
  | some centroid =>
    let initial_indices := List.range (dim + 1)
    match collectRows
        (fun i => Facet.new svd (initial_indices.eraseIdx i) vertices centroid)
        (List.range (dim + 1)) with
    | none => none
    | some opts =>
      foldLoop (insertStep svd vertices dim centroid) opts.reduceOption
        (List.range' (dim + 1) (vertices.length - (dim + 1)))

/-- `convex_hull(vertices, dim)` from `hull.rs`: trivial hull on degenerate
input, otherwise incremental construction followed by triangle extraction.
`none` models a panic. -/
def convex_hull (svd : SvdFun) (vertices : List (List ℚ)) (dim : ℕ) :
    Option (List ℕ) :=
  if vertices.length ≤ dim then some (List.range vertices.length)
  else
    match hull_facets svd vertices dim with
    | none => none
    | some facets => some (extract_triangles facets)

/-- Fuel-driven worker for `chunkList` (the fuel makes the recursion
structural; `l.length` fuel always suffices for `n ≥ 1`). -/
def chunkListAux : ℕ → ℕ → List ℚ → List (List ℚ)
  | 0, _, _ => []
  | _ + 1, _, [] => []
  | fuel + 1, n, x :: xs => ((x :: xs).take n) :: chunkListAux fuel n ((x :: xs).drop n)

/-- Rust's `slice::chunks(n)` for `n ≥ 1`: full chunks plus a shorter final
chunk (the adapter model rejects `n = 0` as a panic before calling this). -/
def chunkList (n : ℕ) (l : List ℚ) : List (List ℚ) := chunkListAux l.length n l

/-- The chunking step of the adapter; `none` models the panic on
`dimension = 0` (`usize` division by zero / `chunks(0)`). -/
def chunksOf? (n : ℕ) (l : List ℚ) : Option (List (List ℚ)) :=
  if n = 0 then none else some (chunkList n l)

/-- `compute_convex_hull_wasm(flat_vertices, dimension)` from `lib.rs`:
reconstruct the point vectors from the flat buffer, project to the affine
hull, compute the hull.  There is no validation step of any kind. -/
def compute_convex_hull_wasm (svd : SvdFun) (flat_vertices : List ℚ)
    (dimension : ℕ) : Option (List ℕ) :=
  match chunksOf? dimension flat_vertices with
  | none => none
  | some vertices =>
    match project_to_affine_hull vertices dimension with
    | none => none
    | some pd => convex_hull svd pd.1 pd.2

/-- Split a flat index list into its consecutive groups of three. -/
def chunk3 : List ℕ → List (List ℕ)
  | a :: b :: c :: rest => [a, b, c] :: chunk3 rest
  | _ => []

/-! ### Concrete inputs used by counterexamples and witnesses -/

/-- The 8 cube vertices `(±1,±1,±1)` in binary enumeration order, as the flat
row-major buffer handed to the boundary adapter. -/
def cubeFlat : List ℚ :=
  [-1,-1,-1, 1,-1,-1, -1,1,-1, 1,1,-1, -1,-1,1, 1,-1,1, -1,1,1, 1,1,1]

/-- The same 8 cube vertices as point vectors. -/
def cubePts : List (List ℚ) :=
  [[-1,-1,-1],[1,-1,-1],[-1,1,-1],[1,1,-1],[-1,-1,1],[1,-1,1],[-1,1,1],[1,1,1]]

/-- What the pipeline actually returns on `cubeFlat`: four triangles (all in
the bottom face `z = -1`), i.e. 12 flat indices, not 36.  The first four cube
vertices are coplanar, so every initial-simplex facet lies in that plane and
no later point is ever visible. -/
def cubeOut : List ℕ := [1, 2, 3, 0, 2, 3, 0, 1, 3, 0, 1, 2]

/-- The facet set the incremental loop ends with on `cubeFlat`. -/
def cubeFacets : List Facet :=
  [⟨[1, 2, 3], [0, 0, -1], 1⟩, ⟨[0, 2, 3], [0, 0, -1], 1⟩,
   ⟨[0, 1, 3], [0, 0, -1], 1⟩, ⟨[0, 1, 2], [0, 0, -1], 1⟩]

/-- Two identical 3-D points as a flat buffer (affine hull of dimension 0). -/
def dupFlat : List ℚ := [0, 0, 0, 0, 0, 0]

/-- A flat buffer of 7 scalars with `dimension = 3`: a shape mismatch (the
last reconstructed point vector has length 1, not 3). -/
def raggedFlat : List ℚ := [0, 0, 0, 0, 0, 0, 0]

/-- Three points whose plane passes through the origin. -/
def cexPts : List (List ℚ) := [[0, 0, 0], [1, 0, 0], [0, 1, 0]]

/-- A centroid lying exactly on the plane of `cexPts`. -/
def cexCentroid : List ℚ := [0, 0, 0]

/-- The facet `Facet::new` builds from `cexPts` and `cexCentroid`. -/
def cexFacet : Facet := ⟨[0, 1, 2], [0, 0, 1], 0⟩

/-- A centroid strictly below the plane of `cexPts`. -/
def wCentroid5 : List ℚ := [0, 0, -1]

/-- Vertices for the horizon-step witness: a triangle in the plane `z = 0`
plus two points on the positive `z`-axis. -/
def w4Verts : List (List ℚ) :=
  [[0, 0, 0], [1, 0, 0], [0, 1, 0], [0, 0, 1], [0, 0, 2]]

/-- Centroid used by the horizon-step witness. -/
def w4Centroid : List ℚ := [1/4, 1/4, 1/4]

/-- The single facet (visible from point 4) of the horizon-step witness. -/
def w4Facets : List Facet := [⟨[0, 1, 2], [0, 0, 1], 0⟩]

/-- The facet set `insertStep` produces in the horizon-step witness. -/
def w4Out : List Facet :=
  [⟨[1, 2, 4], [2/3, 2/3, 1/3], 2/3⟩, ⟨[0, 2, 4], [-1, 0, 0], 0⟩,
   ⟨[0, 1, 4], [0, -1, 0], 0⟩]

/-- Vertices for the interior-point witness. -/
def w1Verts : List (List ℚ) := [[0, 0, 0], [1, 0, 0], [0, 1, 0], [0, 0, 1]]

/-- A facet no point of `w1Verts` is visible to (its plane is `x = 5`). -/
def w1Facets : List Facet := [⟨[0, 1, 2], [1, 0, 0], 5⟩]

/-- Vertices for the dedup witness: a tetrahedron plus an interior point. -/
def w7Verts : List (List ℚ) :=
  [[0, 0, 0], [4, 0, 0], [0, 4, 0], [0, 0, 4], [1, 1, 1]]

/-- The triangle list `convex_hull` returns on `w7Verts`. -/
def w7Out : List ℕ := [1, 2, 3, 0, 2, 3, 0, 1, 3, 0, 1, 2]

/-- Vertices for the projection-idempotence witness (full rank 2). -/
def w6Verts : List (List ℚ) := [[0, 0], [1, 0], [0, 1]]

/-! ### Helper lemmas -/

theorem dotQ_cons_cons (x y : ℚ) (a b : List ℚ) :
    dotQ (x :: a) (y :: b) = x * y + dotQ a b := by
  simp [dotQ]

theorem dotQ_comm (a : List ℚ) : ∀ b : List ℚ, dotQ a b = dotQ b a := by
  induction a with
  | nil => intro b; cases b <;> simp [dotQ]
  | cons x a ih =>
    intro b
    cases b with
    | nil => simp [dotQ]
    | cons y b => rw [dotQ_cons_cons, dotQ_cons_cons, ih, mul_comm]

theorem dotQ_sub_left (a : List ℚ) :
    ∀ (b n : List ℚ), a.length = b.length →
      dotQ (subQ a b) n = dotQ a n - dotQ b n := by
  induction a with
  | nil =>
    intro b n h
    obtain rfl : b = [] := by cases b <;> simp_all
    simp [subQ, dotQ]
  | cons x a ih =>
    intro b n h
    cases b with
    | nil => simp at h
    | cons y b =>
      cases n with
      | nil => simp [dotQ]
      | cons z n =>
        have h' : a.length = b.length := by simpa using h
        simp only [subQ, List.zipWith_cons_cons] at *
        rw [dotQ_cons_cons, dotQ_cons_cons, dotQ_cons_cons]
        have := ih b n h'
        simp only [subQ] at this
        rw [this]
        ring

theorem dotQ_neg_left (a : List ℚ) : ∀ b : List ℚ, dotQ (negQ a) b = -dotQ a b := by
  induction a with
  | nil => intro b; simp [negQ, dotQ]
  | cons x a ih =>
    intro b
    cases b with
    | nil => simp [negQ, dotQ]
    | cons y b =>
      simp only [negQ, List.map_cons] at *
      rw [dotQ_cons_cons, dotQ_cons_cons, ih]
      ring

/-- The orientation step guarantees the centroid ends up on the non-positive
side of the facet plane: `normal·centroid ≤ offset`. -/
theorem orientFacet_centroid_nonpos (idxs : List ℕ) (n0 p0 c : List ℚ)
    (h : c.length = p0.length) :
    dotQ (orientFacet idxs n0 p0 c).normal c ≤ (orientFacet idxs n0 p0 c).offset := by
  have hsub := dotQ_sub_left c p0 n0 h
  by_cases hs : 0 < dotQ (subQ c p0) n0
  · simp only [orientFacet, if_pos hs]
    rw [dotQ_neg_left, dotQ_neg_left, dotQ_comm n0 c, dotQ_comm n0 p0]
    have h1 : 0 < dotQ c n0 - dotQ p0 n0 := hsub ▸ hs
    linarith
  · simp only [orientFacet, if_neg hs]
    rw [dotQ_comm n0 c, dotQ_comm n0 p0]
    have h1 : dotQ c n0 - dotQ p0 n0 ≤ 0 := by
      rw [← hsub]
      exact le_of_not_lt hs
    linarith

theorem mem_enumFrom_snd {α : Type} :
    ∀ (l : List α) (n : ℕ) (p : ℕ × α), p ∈ List.enumFrom n l → p.2 ∈ l := by
  intro l
  induction l with
  | nil => intro n p hp; simp [List.enumFrom] at hp
  | cons x xs ih =>
    intro n p hp
    simp only [List.enumFrom, List.mem_cons] at hp
    rcases hp with rfl | hp
    · simp
    · exact List.mem_cons_of_mem _ (ih (n + 1) p hp)

theorem mem_enumFrom_fst_le {α : Type} :
    ∀ (l : List α) (n : ℕ) (p : ℕ × α), p ∈ List.enumFrom n l → n ≤ p.1 := by
  intro l
  induction l with
  | nil => intro n p hp; simp [List.enumFrom] at hp
  | cons x xs ih =>
    intro n p hp
    simp only [List.enumFrom, List.mem_cons] at hp
    rcases hp with rfl | hp
    · exact le_refl n
    · exact Nat.le_of_succ_le (ih (n + 1) p hp)

theorem enumFrom_filter_map_snd {α : Type} (P : α → Bool) :
    ∀ (l : List α) (n : ℕ),
      ((List.enumFrom n l).filter (fun p => P p.2)).map Prod.snd = l.filter P := by
  intro l
  induction l with
  | nil => intro n; rfl
  | cons x xs ih =>
    intro n
    cases hP : P x <;>
      simp [List.enumFrom, List.filter_cons, hP, ih (n + 1)]

theorem collectRows_of_forall {α β : Type} (g : α → Option β) (h : α → β) :
    ∀ l : List α, (∀ a ∈ l, g a = some (h a)) →
      collectRows g l = some (l.map h) := by
  intro l
  induction l with
  | nil => intro _; rfl
  | cons a as ih =>
    intro hl
    have ha := hl a (List.mem_cons_self a as)
    have has := ih (fun b hb => hl b (List.mem_cons_of_mem a hb))
    simp [collectRows, ha, has]

/-! ### Claim theorems -/

/-- C2 (code_bug evidence): on two identical 3-D points the affine projection
succeeds with dimension 0, but `convex_hull` then panics (modelled `none`):
`Facet::new` is called with an empty vertex-index list, passes the arity
check (`0 = dim`), and indexes `vertex_indices[0]` out of bounds.  So a
failure does escape the pipeline, contrary to the claim. -/
theorem pipeline_identical_points_panics :
    project_to_affine_hull [[0, 0, 0], [0, 0, 0]] 3 = some ([[], []], 0) ∧
    convex_hull svdTrivial [[], []] 0 = none ∧
    compute_convex_hull_wasm svdTrivial dupFlat 3 = none :=
  ⟨by with_unfolding_all rfl, by with_unfolding_all rfl, by with_unfolding_all rfl⟩

/-- C3: with at most `dim` points, `convex_hull` returns the full index list
`0, …, N-1` as a normal (non-panicking) result. -/
theorem convex_hull_degenerate_trivial (svd : SvdFun) (vertices : List (List ℚ))
    (dim : ℕ) (h : vertices.length ≤ dim) :
    convex_hull svd vertices dim = some (List.range vertices.length) := by
  unfold convex_hull
  rw [if_pos h]

/-- Witness for C3 at two 2-D points. -/
theorem convex_hull_degenerate_trivial_witness :
    ([[1, 2], [3, 4]] : List (List ℚ)).length ≤ 2 ∧
    convex_hull svdTrivial [[1, 2], [3, 4]] 2 =
      some (List.range ([[1, 2], [3, 4]] : List (List ℚ)).length) :=
  ⟨by decide, convex_hull_degenerate_trivial svdTrivial [[1, 2], [3, 4]] 2 (by decide)⟩

/-- C9 (code_bug evidence): the adapter performs no shape validation.  On a
7-scalar buffer with `dimension = 3` it chunks into `[[0,0,0],[0,0,0],[0]]`
(the core *is* invoked on inconsistently-sized vectors) and the pipeline then
panics inside `project_to_affine_hull` (modelled `none`) instead of surfacing
an input-validation error — the adapter's return type has no error channel at
all. -/
theorem wasm_adapter_no_shape_validation :
    chunksOf? 3 raggedFlat = some [[0, 0, 0], [0, 0, 0], [0]] ∧
    compute_convex_hull_wasm svdTrivial raggedFlat 3 = none :=
  ⟨by with_unfolding_all rfl, by with_unfolding_all rfl⟩

/-- C10: whenever the number of vertex indices differs from the coordinate
length of point 0, `Facet::new` returns `None` (modelled `some none`), for
every SVD oracle, point tail and centroid. -/
theorem facet_new_arity_check (svd : SvdFun) (idxs : List ℕ) (p : List ℚ)
    (rest : List (List ℚ)) (centroid : List ℚ) (h : idxs.length ≠ p.length) :
    Facet.new svd idxs (p :: rest) centroid = some none := by
  unfold Facet.new
  simp [h]

/-- Witness for C10: two indices against a 3-D point 0. -/
theorem facet_new_arity_check_witness :
    ([0, 1] : List ℕ).length ≠ ([1, 2, 3] : List ℚ).length ∧
    Facet.new svdTrivial [0, 1] [[1, 2, 3]] [0] = some none :=
  ⟨by decide, facet_new_arity_check svdTrivial [0, 1] [1, 2, 3] [] [0] (by decide)⟩

/-- C5 counterexample: `Facet::new` on a triangle through the origin with the
origin itself as centroid returns a facet with `normal·centroid = offset`,
refuting the *strict* inequality claimed. -/
theorem facet_new_centroid_strict_cex :
    Facet.new svdTrivial [0, 1, 2] cexPts cexCentroid = some (some cexFacet) ∧
    ¬ (dotQ cexFacet.normal cexCentroid < cexFacet.offset) :=
  ⟨by with_unfolding_all rfl, by with_unfolding_all decide⟩

/-- C8 counterexample: on the cube vertices in binary enumeration order the
pipeline returns 12 flat indices (4 triangles), not the 36 indices
(12 triangles) the claim demands for every enumeration order.  The first four
points are coplanar, so all four initial facets lie in the plane `z = -1` and
no later point is ever visible. -/
theorem cube_pipeline_triangle_count_cex :
    compute_convex_hull_wasm svdTrivial cubeFlat 3 = some cubeOut ∧
    cubeOut.length ≠ 36 :=
  ⟨by with_unfolding_all rfl, by decide⟩

/-- C8 amended: on the binary enumeration order of the cube the pipeline
returns exactly 4 deduplicated triangles (12 flat indices), and every input
point lies on the non-positive side (within `EPSILON`) of every final facet's
supporting plane.  Every branch decision in this trace involves only exact
integer arithmetic and square roots of perfect squares, so the floating-point
run takes the same path. -/
theorem cube_pipeline_binary_order_eval :
    hull_facets svdTrivial cubePts 3 = some cubeFacets ∧
    compute_convex_hull_wasm svdTrivial cubeFlat 3 = some cubeOut ∧
    cubeOut.length = 12 ∧
    (∀ f ∈ cubeFacets, ∀ p ∈ cubePts, dotQ f.normal p - f.offset ≤ EPSILON) :=
  ⟨by with_unfolding_all rfl, by with_unfolding_all rfl, by decide,
   by with_unfolding_all decide⟩

/-- C1: if the point of an insertion step is visible to no current facet
(`normal·point - offset ≤ 1e-9` for every facet), the step leaves the facet
set exactly as it was: nothing is removed, added, or modified. -/
theorem insertStep_interior_frame (svd : SvdFun) (vertices : List (List ℚ))
    (dim : ℕ) (centroid : List ℚ) (facets : List Facet) (i : ℕ)
    (h : ∀ f ∈ facets, f.is_visible (vertices.getD i []) = false) :
    insertStep svd vertices dim centroid facets i = some facets := by
  have hvp : facets.enum.filter (fun p => p.2.is_visible (vertices.getD i [])) = [] := by
    rw [List.filter_eq_nil_iff]
    intro p hp
    rw [h p.2 (mem_enumFrom_snd facets 0 p hp)]
    simp
  simp only [insertStep, hvp, List.map_nil]
  rw [if_pos trivial]

/-- Witness for C1: a point on the non-positive side of the only facet. -/
theorem insertStep_interior_frame_witness :
    (∀ f ∈ w1Facets, f.is_visible (w1Verts.getD 3 []) = false) ∧
    insertStep svdTrivial w1Verts 3 [0, 0, 0] w1Facets 3 = some w1Facets :=
  ⟨by with_unfolding_all decide,
   insertStep_interior_frame svdTrivial w1Verts 3 [0, 0, 0] w1Facets 3
     (by with_unfolding_all decide)⟩

/-- C5 amended: every facet `Facet::new` returns satisfies
`normal·centroid ≤ offset` (non-strict: the strict version fails when the
centroid lies exactly on the facet plane, see the counterexample). -/
theorem facet_new_centroid_nonpos (svd : SvdFun) (idxs : List ℕ)
    (pts : List (List ℚ)) (c : List ℚ) (f : Facet)
    (hres : Facet.new svd idxs pts c = some (some f)) :
    dotQ f.normal c ≤ f.offset := by
  simp only [Facet.new] at hres
  repeat' split at hres
  all_goals try exact Option.noConfusion hres
  all_goals try exact Option.noConfusion (Option.some.inj hres)
  all_goals rw [Option.some.injEq, Option.some.injEq] at hres
  all_goals subst hres
  all_goals apply orientFacet_centroid_nonpos
  all_goals omega

/-- Witness for C5 amended: a centroid strictly below the plane. -/
theorem facet_new_centroid_nonpos_witness :
    Facet.new svdTrivial [0, 1, 2] cexPts wCentroid5 = some (some cexFacet) ∧
    dotQ cexFacet.normal wCentroid5 ≤ cexFacet.offset :=
  ⟨by with_unfolding_all rfl,
   facet_new_centroid_nonpos svdTrivial [0, 1, 2] cexPts wCentroid5 cexFacet
     (by with_unfolding_all rfl)⟩

/-- C6: when the Gram-Schmidt pass finds a full-rank basis (`d` accepted
vectors under the `1e-9` drop tolerance), `project_to_affine_hull` returns
the input points unchanged together with the unchanged dimension `d`. -/
theorem project_full_rank_identity (v : List (List ℚ)) (d : ℕ)
    (bs : List (List ℚ)) (hd : ∀ q ∈ v, q.length = d)
    (hb : affineBasisAux (v.headD []) d [] (v.drop 1) = some bs)
    (hr : d ≤ bs.length) :
    project_to_affine_hull v d = some (v, d) := by
  rcases v with _ | ⟨q, rest⟩
  · obtain rfl : bs = [] := by simpa [affineBasisAux] using hb.symm
    obtain rfl : d = 0 := Nat.le_zero.mp (by simpa using hr)
    rfl
  · rcases rest with _ | ⟨r, rest'⟩
    · have hq : q.length = d := hd q (by simp)
      unfold project_to_affine_hull
      simp [hq]
    · have hn : ¬ ((q :: r :: rest').length < 2) := by
        simp only [List.length_cons]
        omega
      unfold project_to_affine_hull
      rw [if_neg hn]
      simp only [hb]
      rw [if_pos hr]

/-- Witness for C6: three full-rank points in the plane. -/
theorem project_full_rank_identity_witness :
    (∀ q ∈ w6Verts, q.length = 2) ∧
    affineBasisAux (w6Verts.headD []) 2 [] (w6Verts.drop 1) =
      some [[1, 0], [0, 1]] ∧
    2 ≤ ([[1, 0], [0, 1]] : List (List ℚ)).length ∧
    project_to_affine_hull w6Verts 2 = some (w6Verts, 2) :=
  ⟨by decide, by with_unfolding_all rfl, by decide,
   project_full_rank_identity w6Verts 2 [[1, 0], [0, 1]] (by decide)
     (by with_unfolding_all rfl) (by decide)⟩

theorem chunk3_append : ∀ (l t : List ℕ), t.length = 3 → l.length % 3 = 0 →
    chunk3 (l ++ t) = chunk3 l ++ [t]
  | [], t, h3, _ => by
    obtain ⟨a, b, c, rfl⟩ := List.length_eq_three.mp h3
    rfl
  | [x], t, h3, hl => by simp at hl
  | [x, y], t, h3, hl => by simp at hl
  | x :: y :: z :: rest, t, h3, hl => by
    have hrest : rest.length % 3 = 0 := by
      simp only [List.length_cons] at hl
      omega
    show [x, y, z] :: chunk3 (rest ++ t) = ([x, y, z] :: chunk3 rest) ++ [t]
    rw [chunk3_append rest t h3 hrest]
    rfl

theorem sortIdx_length (l : List ℕ) : (sortIdx l).length = l.length :=
  (List.perm_insertionSort _ l).length_eq

theorem sortIdx_idem (l : List ℕ) : sortIdx (sortIdx l) = sortIdx l :=
  (List.sorted_insertionSort _ l).insertionSort_eq

theorem facetTriples_mem_len (vs t : List ℕ) (ht : t ∈ facetTriples vs) :
    t.length = 3 := by
  simp only [facetTriples, List.mem_flatMap, List.mem_map] at ht
  obtain ⟨i, _, j, _, k, _, rfl⟩ := ht
  rfl

theorem foldl_flatMap_eq {α β σ : Type} (g : α → List β) (f : σ → β → σ) :
    ∀ (l : List α) (s : σ),
      l.foldl (fun st a => (g a).foldl f st) s = (l.flatMap g).foldl f s := by
  intro l
  induction l with
  | nil => intro s; rfl
  | cons a as ih =>
    intro s
    simp only [List.foldl_cons, List.flatMap_cons, List.foldl_append, ih]

/-- Invariant of the dedup loop: the emitted flat list has length a multiple
of 3, its 3-chunks are the reverse of the seen-key list, the seen keys are
pairwise distinct, and every seen key is sorted. -/
theorem triStep_foldl_inv :
    ∀ (ts : List (List ℕ)) (st : List (List ℕ) × List ℕ),
      (∀ t ∈ ts, t.length = 3) →
      st.2.length % 3 = 0 →
      chunk3 st.2 = st.1.reverse →
      st.1.Nodup →
      (∀ k ∈ st.1, sortIdx k = k) →
      ((ts.foldl triStep st).2.length % 3 = 0 ∧
        chunk3 (ts.foldl triStep st).2 = (ts.foldl triStep st).1.reverse ∧
        (ts.foldl triStep st).1.Nodup ∧
        (∀ k ∈ (ts.foldl triStep st).1, sortIdx k = k)) := by
  intro ts
  induction ts with
  | nil => intro st _ h2 h3 h4 h5; exact ⟨h2, h3, h4, h5⟩
  | cons t ts ih =>
    intro st hlen h2 h3 h4 h5
    have ht3 : t.length = 3 := hlen t (by simp)
    have hts : ∀ u ∈ ts, u.length = 3 := fun u hu => hlen u (List.mem_cons_of_mem _ hu)
    rw [List.foldl_cons]
    by_cases hmem : sortIdx t ∈ st.1
    · have hstep : triStep st t = st := by simp [triStep, hmem]
      rw [hstep]
      exact ih st hts h2 h3 h4 h5
    · have hstep : triStep st t = (sortIdx t :: st.1, st.2 ++ sortIdx t) := by
        simp [triStep, hmem]
      rw [hstep]
      apply ih
      · exact hts
      · rw [List.length_append, sortIdx_length, ht3]
        omega
      · rw [chunk3_append st.2 (sortIdx t) (by rw [sortIdx_length, ht3]) h2, h3,
          List.reverse_cons]
      · exact List.nodup_cons.mpr ⟨hmem, h4⟩
      · intro k hk
        rcases List.mem_cons.mp hk with rfl | hk'
        · exact sortIdx_idem t
        · exact h5 k hk'

theorem extract_triangles_spec (fs : List Facet) :
    (extract_triangles fs).length % 3 = 0 ∧
    ((chunk3 (extract_triangles fs)).map sortIdx).Nodup := by
  unfold extract_triangles
  rw [foldl_flatMap_eq (fun f => facetTriples f.vertices) triStep fs ([], [])]
  have hlen : ∀ t ∈ fs.flatMap (fun f => facetTriples f.vertices), t.length = 3 := by
    intro t ht
    rw [List.mem_flatMap] at ht
    obtain ⟨f, _, htf⟩ := ht
    exact facetTriples_mem_len _ _ htf
  obtain ⟨h1, h2, h3, h4⟩ :=
    triStep_foldl_inv _ ([], []) hlen (by simp) (by simp [chunk3]) (by simp) (by simp)
  refine ⟨h1, ?_⟩
  rw [h2]
  have hid : ∀ k ∈ ((fs.flatMap (fun f => facetTriples f.vertices)).foldl triStep
      ([], [])).1.reverse, sortIdx k = k :=
    fun k hk => h4 k (List.mem_reverse.mp hk)
  rw [List.map_congr_left hid]
  simp only [List.map_id_fun', id]
  exact List.nodup_reverse.mpr h3

/-- C7: in the non-degenerate branch, the returned flat list has length a
multiple of 3 and no sorted 3-index key occurs twice among its consecutive
triples — the global deduplication works. -/
theorem convex_hull_triangle_dedup (svd : SvdFun) (v : List (List ℚ)) (dim : ℕ)
    (out : List ℕ) (hdim : dim < v.length)
    (hres : convex_hull svd v dim = some out) :
    out.length % 3 = 0 ∧ ((chunk3 out).map sortIdx).Nodup := by
  unfold convex_hull at hres
  rw [if_neg (not_le.mpr hdim)] at hres
  cases hfs : hull_facets svd v dim with
  | none => rw [hfs] at hres; exact Option.noConfusion hres
  | some fs =>
    rw [hfs] at hres
    obtain rfl : extract_triangles fs = out := Option.some.inj hres
    exact extract_triangles_spec fs

set_option maxRecDepth 100000 in
/-- Witness for C7: a tetrahedron plus an interior point. -/
theorem convex_hull_triangle_dedup_witness :
    3 < w7Verts.length ∧
    convex_hull svdTrivial w7Verts 3 = some w7Out ∧
    (w7Out.length % 3 = 0 ∧ ((chunk3 w7Out).map sortIdx).Nodup) :=
  ⟨by decide, by with_unfolding_all rfl,
   convex_hull_triangle_dedup svdTrivial w7Verts 3 w7Out (by decide)
     (by with_unfolding_all rfl)⟩

theorem countOf_bumpRidge (m : List (List ℕ × ℕ)) (r x : List ℕ) :
    countOf (bumpRidge m r) x = countOf m x + (if r = x then 1 else 0) := by
  induction m with
  | nil => by_cases h : r = x <;> simp [bumpRidge, countOf, h]
  | cons kc rest ih =>
    obtain ⟨k, c⟩ := kc
    by_cases hk : k = r
    · subst hk
      by_cases hx : k = x <;> simp [bumpRidge, countOf, hx] <;> omega
    · simp only [bumpRidge, if_neg hk, countOf, ih]
      omega

theorem countOf_foldl (rs : List (List ℕ)) :
    ∀ (m : List (List ℕ × ℕ)) (x : List ℕ),
      countOf (rs.foldl bumpRidge m) x = countOf m x + rs.count x := by
  induction rs with
  | nil => intro m x; simp
  | cons r rs ih =>
    intro m x
    rw [List.foldl_cons, ih, countOf_bumpRidge, List.count_cons]
    by_cases h : r = x <;> simp [h] <;> omega

theorem bumpRidge_keys (m : List (List ℕ × ℕ)) (r : List ℕ) :
    (bumpRidge m r).map Prod.fst =
      if r ∈ m.map Prod.fst then m.map Prod.fst else m.map Prod.fst ++ [r] := by
  induction m with
  | nil => simp [bumpRidge]
  | cons kc rest ih =>
    obtain ⟨k, c⟩ := kc
    by_cases hk : k = r
    · subst hk; simp [bumpRidge]
    · have hne : ¬ r = k := fun hh => hk hh.symm
      by_cases hr : r ∈ rest.map Prod.fst <;>
        simp [bumpRidge, hk, ih, hr, hne, List.mem_cons]

theorem bumpRidge_keys_nodup (m : List (List ℕ × ℕ)) (r : List ℕ)
    (h : (m.map Prod.fst).Nodup) : ((bumpRidge m r).map Prod.fst).Nodup := by
  rw [bumpRidge_keys]
  by_cases hr : r ∈ m.map Prod.fst
  · rw [if_pos hr]; exact h
  · rw [if_neg hr, List.nodup_append]
    exact ⟨h, List.nodup_singleton r,
      fun a ha hb => hr ((List.mem_singleton.mp hb) ▸ ha)⟩

theorem foldl_bumpRidge_keys_nodup (rs : List (List ℕ)) :
    ∀ m : List (List ℕ × ℕ), (m.map Prod.fst).Nodup →
      ((rs.foldl bumpRidge m).map Prod.fst).Nodup := by
  induction rs with
  | nil => intro m h; exact h
  | cons r rs ih => intro m h; exact ih _ (bumpRidge_keys_nodup m r h)

theorem countOf_eq_zero_of_not_mem (m : List (List ℕ × ℕ)) (r : List ℕ)
    (h : r ∉ m.map Prod.fst) : countOf m r = 0 := by
  induction m with
  | nil => rfl
  | cons kc rest ih =>
    obtain ⟨k, c⟩ := kc
    simp only [List.map_cons, List.mem_cons, not_or] at h
    have hk : ¬ k = r := fun hh => h.1 hh.symm
    simp [countOf, hk, ih h.2]

theorem mem_of_countOf_eq_one (m : List (List ℕ × ℕ)) (r : List ℕ)
    (hnd : (m.map Prod.fst).Nodup) (h : countOf m r = 1) : (r, 1) ∈ m := by
  induction m with
  | nil => simp [countOf] at h
  | cons kc rest ih =>
    obtain ⟨k, c⟩ := kc
    have hnd1 : k ∉ rest.map Prod.fst := (List.nodup_cons.mp hnd).1
    have hnd2 : (rest.map Prod.fst).Nodup := (List.nodup_cons.mp hnd).2
    by_cases hk : k = r
    · subst hk
      have h0 : countOf rest k = 0 := countOf_eq_zero_of_not_mem _ _ hnd1
      have hc : c = 1 := by simpa [countOf, h0] using h
      subst hc
      exact List.mem_cons_self _ _
    · have hr : countOf rest r = 1 := by simpa [countOf, hk] using h
      exact List.mem_cons_of_mem _ (ih hnd2 hr)

theorem countOf_eq_of_mem (m : List (List ℕ × ℕ)) (r : List ℕ) (c : ℕ)
    (hnd : (m.map Prod.fst).Nodup) (h : (r, c) ∈ m) : countOf m r = c := by
  induction m with
  | nil => simp at h
  | cons kc rest ih =>
    obtain ⟨k, c'⟩ := kc
    have hnd1 : k ∉ rest.map Prod.fst := (List.nodup_cons.mp hnd).1
    have hnd2 : (rest.map Prod.fst).Nodup := (List.nodup_cons.mp hnd).2
    rcases List.mem_cons.mp h with heq | hmem
    · obtain ⟨rfl, rfl⟩ := Prod.mk.injEq r c k c' ▸ heq
      have h0 : countOf rest r = 0 := countOf_eq_zero_of_not_mem _ _ hnd1
      simp [countOf, h0]
    · have hr : r ∈ rest.map Prod.fst :=
        List.mem_map_of_mem Prod.fst hmem
      have hk : ¬ k = r := fun hh => hnd1 (hh ▸ hr)
      simp [countOf, hk, ih hnd2 hmem]

/-- The horizon list computed from the ridge map contains a key exactly when
that key occurs exactly once in the ridge multiset. -/
theorem horizon_mem_iff (rs : List (List ℕ)) (r : List ℕ) :
    r ∈ ((rs.foldl bumpRidge []).filter (fun rc => rc.2 == 1)).map Prod.fst ↔
      rs.count r = 1 := by
  have hnd : ((rs.foldl bumpRidge []).map Prod.fst).Nodup :=
    foldl_bumpRidge_keys_nodup rs [] (by simp)
  have hcnt : ∀ x, countOf (rs.foldl bumpRidge []) x = rs.count x := by
    intro x
    have := countOf_foldl rs [] x
    simpa [countOf] using this
  constructor
  · intro hr
    simp only [List.mem_map, List.mem_filter] at hr
    obtain ⟨⟨r', c⟩, ⟨hmem, hc⟩, rfl⟩ := hr
    have hc1 : c = 1 := by simpa using hc
    subst hc1
    rw [← hcnt]
    exact countOf_eq_of_mem _ _ _ hnd hmem
  · intro hc
    have hm : (r, 1) ∈ rs.foldl bumpRidge [] :=
      mem_of_countOf_eq_one _ _ hnd (by rw [hcnt]; exact hc)
    exact List.mem_map_of_mem Prod.fst (List.mem_filter.mpr ⟨hm, by simp⟩)

theorem horizon_nodup (rs : List (List ℕ)) :
    (((rs.foldl bumpRidge []).filter (fun rc => rc.2 == 1)).map Prod.fst).Nodup :=
  (foldl_bumpRidge_keys_nodup rs [] (by simp)).sublist
    ((List.filter_sublist _).map Prod.fst)

/-- Indices are unique within `enumFrom`: an entry is determined by its
index. -/
theorem enumFrom_inj {α : Type} :
    ∀ (l : List α) (n : ℕ) (p q : ℕ × α),
      p ∈ List.enumFrom n l → q ∈ List.enumFrom n l → p.1 = q.1 → p = q := by
  intro l
  induction l with
  | nil => intro n p q hp _ _; simp [List.enumFrom] at hp
  | cons x xs ih =>
    intro n p q hp hq hpq
    simp only [List.enumFrom, List.mem_cons] at hp hq
    rcases hp with rfl | hp'
    · rcases hq with rfl | hq'
      · rfl
      · have := mem_enumFrom_fst_le xs (n + 1) q hq'
        omega
    · rcases hq with rfl | hq'
      · have := mem_enumFrom_fst_le xs (n + 1) p hp'
        omega
      · exact ih (n + 1) p q hp' hq' hpq

/-- Filtering the enumeration by non-membership of the index in a fixed list
`vis` that agrees with `P` on all enumerated indices is the same as filtering
out the elements satisfying `P`. -/
theorem kept_general {α : Type} (P : α → Bool) (vis : List ℕ) :
    ∀ (l : List α) (n : ℕ),
      (∀ p : ℕ × α, p ∈ List.enumFrom n l → vis.contains p.1 = P p.2) →
      ((List.enumFrom n l).filter (fun p => !(vis.contains p.1))).map Prod.snd
        = l.filter (fun a => !(P a)) := by
  intro l
  induction l with
  | nil => intro n _; rfl
  | cons x xs ih =>
    intro n hagree
    have hhead : vis.contains n = P x := hagree (n, x) (by simp [List.enumFrom])
    have htail := ih (n + 1) (fun p hp => hagree p (by simp [List.enumFrom, hp]))
    simp only [List.enumFrom]
    cases hPx : P x
    · have hn : n ∉ vis := fun hmem => by
        have h1 : vis.contains n = true := List.elem_iff.mpr hmem
        rw [hhead, hPx] at h1
        exact Bool.noConfusion h1
      simp only [Bool.not_eq_true] at htail ⊢
      simp at htail
      simp [List.filter_cons, hn, hPx, htail]
    · have hn : n ∈ vis := List.elem_iff.mp (by
        show vis.contains n = true
        rw [hhead, hPx])
      simp at htail
      simp [List.filter_cons, hn, hPx, htail]

/-- The visible-index list of the source agrees with the visibility predicate
on every enumerated index. -/
theorem vis_agree {α : Type} (P : α → Bool) (l : List α) :
    ∀ p : ℕ × α, p ∈ List.enumFrom 0 l →
      ((((List.enumFrom 0 l).filter (fun q => P q.2)).map Prod.fst).contains p.1)
        = P p.2 := by
  intro p hp
  cases hPp : P p.2
  · cases hcont : (((List.enumFrom 0 l).filter (fun q => P q.2)).map
        Prod.fst).contains p.1
    · rfl
    · exfalso
      have hmem := List.elem_iff.mp hcont
      obtain ⟨q, hq, hq1⟩ := List.mem_map.mp hmem
      have hqf := List.mem_filter.mp hq
      have : q = p := enumFrom_inj l 0 q p hqf.1 hp hq1
      subst this
      rw [hPp] at hqf
      exact Bool.noConfusion hqf.2
  · have hmem : p.1 ∈ ((List.enumFrom 0 l).filter (fun q => P q.2)).map
        Prod.fst :=
      List.mem_map_of_mem Prod.fst (List.mem_filter.mpr ⟨hp, hPp⟩)
    exact List.elem_iff.mpr hmem

/-- Instance of `enumFrom_filter_map_snd` for the visibility scan: the facets
of the visible pairs are exactly the facets passing the visibility test. -/
theorem vis_pairs_snd (facets : List Facet) (pt : List ℚ) :
    ((facets.enum).filter (fun p => p.2.is_visible pt)).map Prod.snd
      = facets.filter (fun f => f.is_visible pt) :=
  enumFrom_filter_map_snd (fun f => f.is_visible pt) facets 0

/-- Instance of `kept_general`: removing the facets whose index occurs in the
visible-index list keeps exactly the invisible facets. -/
theorem vis_kept (facets : List Facet) (pt : List ℚ) :
    ((facets.enum).filter (fun p =>
      !((((facets.enum).filter (fun q => q.2.is_visible pt)).map
        Prod.fst).contains p.1))).map Prod.snd
      = facets.filter (fun f => !(f.is_visible pt)) :=
  kept_general (fun f => f.is_visible pt)
    (((facets.enum).filter (fun q => q.2.is_visible pt)).map Prod.fst)
    facets 0 (vis_agree (fun f => f.is_visible pt) facets)

/-- C4: in an insertion step with at least one visible facet, the result is
exactly the invisible facets followed by the facets successfully built from
the horizon ridges and the new point, where a ridge (sorted `(d-1)`-subset)
is a horizon ridge precisely when it occurs exactly once over all visible
facets; ridges occurring twice or more produce nothing, and every visible
facet is removed. -/
theorem insertStep_horizon_characterization
    (svd : SvdFun) (vertices : List (List ℚ)) (dim : ℕ) (centroid : List ℚ)
    (facets : List Facet) (i : ℕ) (out : List Facet)
    (hlen : ∀ f ∈ facets, dim ≤ f.vertices.length)
    (hvis : ∃ f ∈ facets, f.is_visible (vertices.getD i []) = true)
    (hres : insertStep svd vertices dim centroid facets i = some out) :
    ∃ horizon : List (List ℕ), ∃ opts : List (Option Facet),
      horizon.Nodup ∧
      (∀ r : List ℕ, r ∈ horizon ↔
        ((facets.filter (fun f => f.is_visible (vertices.getD i []))).flatMap
          (fun f => (List.range dim).map
            (fun j => sortIdx (f.vertices.eraseIdx j)))).count r = 1) ∧
      collectRows (fun ridge => Facet.new svd (ridge ++ [i]) vertices centroid)
        horizon = some opts ∧
      out = (facets.filter (fun f => !(f.is_visible (vertices.getD i [])))) ++
        opts.reduceOption := by
  simp only [insertStep] at hres
  have hsnd := vis_pairs_snd facets (vertices.getD i [])
  have hcond : ¬ ((facets.enum.filter
      (fun p => p.2.is_visible (vertices.getD i []))).map Prod.fst = []) := by
    intro h0
    obtain ⟨f, hf, hfv⟩ := hvis
    have hmem : f ∈ facets.filter (fun f => f.is_visible (vertices.getD i [])) :=
      List.mem_filter.mpr ⟨hf, hfv⟩
    rw [← hsnd] at hmem
    rcases List.mem_map.mp hmem with ⟨p, hp, rfl⟩
    have hfst : p.1 ∈ (facets.enum.filter
        (fun p => p.2.is_visible (vertices.getD i []))).map Prod.fst :=
      List.mem_map_of_mem Prod.fst hp
    rw [h0] at hfst
    simp at hfst
  rw [if_neg hcond] at hres
  have hforall : ∀ f ∈ facets.filter (fun f => f.is_visible (vertices.getD i [])),
      facetRidges dim f =
        some ((List.range dim).map (fun j => sortIdx (f.vertices.eraseIdx j))) := by
    intro f hf
    unfold facetRidges
    rw [if_neg (not_lt.mpr (hlen f (List.mem_filter.mp hf).1))]
  have hrows : collectRows (facetRidges dim)
      ((facets.enum.filter (fun p => p.2.is_visible (vertices.getD i []))).map
        Prod.snd)
      = some ((facets.filter (fun f => f.is_visible (vertices.getD i []))).map
        (fun f => (List.range dim).map (fun j => sortIdx (f.vertices.eraseIdx j)))) := by
    rw [hsnd]
    exact collectRows_of_forall _ _ _ hforall
  cases hrg : collectRows (facetRidges dim)
      ((facets.enum.filter (fun p => p.2.is_visible (vertices.getD i []))).map
        Prod.snd) with
  | none => exact Option.noConfusion (hrows.symm.trans hrg)
  | some RG =>
    obtain rfl : (facets.filter (fun f => f.is_visible (vertices.getD i []))).map
        (fun f => (List.range dim).map (fun j => sortIdx (f.vertices.eraseIdx j)))
        = RG := Option.some.inj (hrows.symm.trans hrg)
    rw [hrg] at hres
    replace hres : (match collectRows
        (fun ridge => Facet.new svd (ridge ++ [i]) vertices centroid)
        ((((((facets.filter (fun f => f.is_visible (vertices.getD i []))).map
          (fun f => (List.range dim).map
            (fun j => sortIdx (f.vertices.eraseIdx j)))).flatten).foldl
              bumpRidge []).filter (fun rc => rc.2 == 1)).map Prod.fst) with
      | none => none
      | some newOpts =>
        some (((facets.enum.filter (fun p =>
          !((((facets.enum.filter (fun q =>
            q.2.is_visible (vertices.getD i []))).map Prod.fst).contains
              p.1)))).map Prod.snd) ++ newOpts.reduceOption)) = some out := hres
    have hflat : ((facets.filter (fun f => f.is_visible (vertices.getD i []))).map
        (fun f => (List.range dim).map
          (fun j => sortIdx (f.vertices.eraseIdx j)))).flatten
        = (facets.filter (fun f => f.is_visible (vertices.getD i []))).flatMap
          (fun f => (List.range dim).map
            (fun j => sortIdx (f.vertices.eraseIdx j))) := rfl
    rw [hflat] at hres
    cases hnew : collectRows
        (fun ridge => Facet.new svd (ridge ++ [i]) vertices centroid)
        (((((facets.filter (fun f => f.is_visible (vertices.getD i []))).flatMap
          (fun f => (List.range dim).map
            (fun j => sortIdx (f.vertices.eraseIdx j)))).foldl
              bumpRidge []).filter (fun rc => rc.2 == 1)).map Prod.fst) with
    | none =>
      rw [hnew] at hres
      exact Option.noConfusion hres
    | some opts =>
      rw [hnew] at hres
      replace hres : some (((facets.enum.filter (fun p =>
          !((((facets.enum.filter (fun q =>
            q.2.is_visible (vertices.getD i []))).map Prod.fst).contains
              p.1)))).map Prod.snd) ++ opts.reduceOption) = some out := hres
      refine ⟨_, opts, horizon_nodup _, fun r => horizon_mem_iff _ r, hnew, ?_⟩
      rw [← Option.some.inj hres, vis_kept facets (vertices.getD i [])]

set_option maxRecDepth 100000 in
/-- Witness for C4: one visible facet, three horizon ridges, three new
facets. -/
theorem insertStep_horizon_characterization_witness :
    (∀ f ∈ w4Facets, 3 ≤ f.vertices.length) ∧
    (∃ f ∈ w4Facets, f.is_visible (w4Verts.getD 4 []) = true) ∧
    insertStep svdTrivial w4Verts 3 w4Centroid w4Facets 4 = some w4Out ∧
    (∃ horizon : List (List ℕ), ∃ opts : List (Option Facet),
      horizon.Nodup ∧
      (∀ r : List ℕ, r ∈ horizon ↔
        ((w4Facets.filter (fun f => f.is_visible (w4Verts.getD 4 []))).flatMap
          (fun f => (List.range 3).map
            (fun j => sortIdx (f.vertices.eraseIdx j)))).count r = 1) ∧
      collectRows (fun ridge => Facet.new svdTrivial (ridge ++ [4]) w4Verts
        w4Centroid) horizon = some opts ∧
      w4Out = (w4Facets.filter (fun f => !(f.is_visible (w4Verts.getD 4 [])))) ++
        opts.reduceOption) :=
  ⟨by decide, by with_unfolding_all decide, by with_unfolding_all rfl,
   insertStep_horizon_characterization svdTrivial w4Verts 3 w4Centroid w4Facets 4
     w4Out (by decide) (by with_unfolding_all decide) (by with_unfolding_all rfl)⟩
